import Mathlib

/-!
Verification of the `fallout` fallthrough-match rewriter of the
`plutonium` crate (`src/lib.rs`).

The embedding models the fragment of the `syn` AST that the rewriter
inspects: expressions (`Expr`), statements (`Stmt`) and match arms
(`Arm`).  Patterns, scrutinees and all expressions the rewriter never
looks inside are opaque (`Nat` indices / `atom`).  Rust code that can
abort (the `as_arm_body` abort on an empty accumulator) is modelled with
`Option`, `none` standing for the abort.
-/

namespace Plutonium

mutual

inductive Expr where
  | breakE : Expr
  | unitE : Expr
  | blockE : List Stmt → Expr
  | matchE : Nat → List Arm → Expr
  | atom : Nat → Expr

inductive Stmt where
  | localS : Nat → Stmt
  | itemS : Nat → Stmt
  | exprS : Expr → Stmt
  | semiS : Expr → Stmt

inductive Arm where
  | mk : Nat → Expr → Arm

end

/-- The pattern of a match arm (opaque, never examined by the rewriter). -/
def Arm.pat : Arm → Nat
  | .mk p _ => p

/-- The body of a match arm. -/
def Arm.body : Arm → Expr
  | .mk _ b => b

/-- Classification of an arm body, from `enum ArmEnd { Break, FallThru }`. -/
inductive ArmEnd where
  | Break : ArmEnd
  | FallThru : ArmEnd
  deriving DecidableEq

/-- `FallThru::parse_arm` (src/lib.rs lines 310-334): a bare `break`
becomes the no-op value `()` classified `Break`; a block whose last
statement is a `break` (with or without semicolon) has that statement
popped and the semicolon removed from the new last statement, classified
`Break`; everything else is returned unchanged, classified `FallThru`. -/
def parse_arm : Expr → Expr × ArmEnd
  | .breakE => (.unitE, .Break)
  | .blockE stmts =>
    match stmts.getLast? with
    | some (.exprS .breakE) | some (.semiS .breakE) =>
      let popped := stmts.dropLast
      let newStmts :=
        match popped.getLast? with
        | some (.semiS e) => popped.dropLast ++ [Stmt.exprS e]
        | some other => popped.dropLast ++ [other]
        | none => popped
      (.blockE newStmts, .Break)
    | _ => (.blockE stmts, .FallThru)
  | other => (other, .FallThru)

/-- `FallThru::as_arm_body` (src/lib.rs lines 280-308): aborts
("arm exprs is empty", modelled by `none`) when the accumulator is
empty; otherwise builds the statement list with the first (oldest)
accumulator entry as the value-producing `Stmt::Expr` and every later
entry as a discarded `Stmt::Semi`, reverses it, and wraps it in a block
expression. -/
def as_arm_body (arm_exprs : List Expr) : Option Expr :=
  match arm_exprs with
  | [] => none
  | e :: rest => some (.blockE ((Stmt.exprS e :: rest.map Stmt.semiS).reverse))

/-- `FallThru::fold_arm` (src/lib.rs lines 264-274): classify the body,
clear the accumulator on `Break`, push the break-stripped body, then
replace the arm's body with `as_arm_body` of the accumulator. -/
def fold_arm (st : List Expr) (arm : Arm) : Option (List Expr × Arm) :=
  let (breakless_body, arm_ending) := parse_arm arm.body
  let st1 : List Expr :=
    match arm_ending with
    | .Break => []
    | .FallThru => st
  let st2 := st1 ++ [breakless_body]
  match as_arm_body st2 with
  | none => none
  | some body => some (st2, Arm.mk arm.pat body)

/-- The stateful `map` of `fold_arm` over a list of arms, as performed by
`m.arms.iter().rev().map(|arm| arm_masher.fold_arm(arm.clone()))` in
`fallthrough_expr`. -/
def mash_arms (st : List Expr) : List Arm → Option (List Arm)
  | [] => some []
  | a :: rest =>
    match fold_arm st a with
    | none => none
    | some (st2, a2) =>
      match mash_arms st2 rest with
      | none => none
      | some rest2 => some (a2 :: rest2)

/-- `fallthrough_expr` (src/lib.rs lines 245-258): a match expression has
its arms folded in reverse order with a fresh accumulator and the result
reversed back; every other expression is cloned unchanged. -/
def fallthrough_expr (expr : Expr) : Option Expr :=
  match expr with
  | .matchE scrut arms =>
    match mash_arms [] arms.reverse with
    | none => none
    | some mashed => some (.matchE scrut mashed.reverse)
  | other => some other

/-- `fallthrough_stmts` (src/lib.rs lines 233-243): locals and items are
pushed unchanged; expression and semi statements have `fallthrough_expr`
applied to their expression. -/
def fallthrough_stmts : List Stmt → Option (List Stmt)
  | [] => some []
  | stmt :: rest =>
    let head? : Option Stmt :=
      match stmt with
      | .localS n => some (Stmt.localS n)
      | .itemS n => some (Stmt.itemS n)
      | .exprS e => (fallthrough_expr e).map Stmt.exprS
      | .semiS e => (fallthrough_expr e).map Stmt.semiS
    match head?, fallthrough_stmts rest with
    | some h, some r => some (h :: r)
    | _, _ => none

/-- The input of the `fallout` attribute: either a token stream that
parses as an `ItemFn` (signature opaque, body a statement list) or one
that does not. -/
inductive FnInput where
  | parsed : Nat → List Stmt → FnInput
  | unparsable : Nat → FnInput

/-- `fallout` (src/lib.rs lines 224-231): when the tokens parse as a
function, rewrite the body statements; otherwise return the original
tokens. -/
def fallout (item : FnInput) : Option FnInput :=
  match item with
  | .parsed sig stmts =>
    match fallthrough_stmts stmts with
    | none => none
    | some s => some (.parsed sig s)
  | .unparsable t => some (.unparsable t)

/-! ### Specification-side helpers

These definitions follow the spec's wording and are compared with the
source functions above. -/

/-- A fallthrough chain as the spec describes it: the listed expressions
top-to-bottom, every expression but the last converted to a
value-discarding statement, the last retained as the value-producing
expression. -/
def chain : List Expr → List Stmt
  | [] => []
  | [e] => [Stmt.exprS e]
  | e :: rest => Stmt.semiS e :: chain rest

/-- The accumulator after the clearing step of `fold_arm`: cleared on
`Break`, kept on `FallThru`. -/
def clearOn (st : List Expr) : ArmEnd → List Expr
  | .Break => []
  | .FallThru => st

/-- The accumulator after `fold_arm` processes one arm: clear on `Break`,
then push the break-stripped body. -/
def newAcc (st : List Expr) (arm : Arm) : List Expr :=
  clearOn st (parse_arm arm.body).2 ++ [(parse_arm arm.body).1]

/-- Removing the semicolon of the last statement, as the spec describes
the conversion of the statement preceding a stripped `break`. -/
def unsemiLast (l : List Stmt) : List Stmt :=
  match l.getLast? with
  | some (.semiS e) => l.dropLast ++ [Stmt.exprS e]
  | some other => l.dropLast ++ [other]
  | none => l

/-- Whether a body ends in an explicit break as `parse_arm` detects it:
a bare break, or a block whose last statement is a break. -/
def endsInBreakB : Expr → Bool
  | .breakE => true
  | .blockE stmts =>
    match stmts.getLast? with
    | some (.exprS .breakE) => true
    | some (.semiS .breakE) => true
    | _ => false
  | _ => false

/-- Whether an expression is syntactically a match expression. -/
def isMatchB : Expr → Bool
  | .matchE _ _ => true
  | _ => false

/-- Whether a statement is exactly a top-level match expression. -/
def isMatchStmtB : Stmt → Bool
  | .exprS (.matchE _ _) => true
  | .semiS (.matchE _ _) => true
  | _ => false

/-- Whether an expression is the `()` literal. -/
def isUnitLit : Expr → Bool
  | .unitE => true
  | _ => false

/-- The value-producing expression of a synthesized block body: the last
statement when it is a value-producing `Stmt::Expr`. -/
def retainedValue : Expr → Option Expr
  | .blockE stmts =>
    match stmts.getLast? with
    | some (.exprS e) => some e
    | _ => none
  | _ => none

/-- The index of an opaque atom expression. -/
def atomIdx : Expr → Option Nat
  | .atom n => some n
  | _ => none

/-- Per-statement description of the rewrite `fallthrough_stmts`
performs: locals and items unchanged, expression statements rewritten by
`fallthrough_expr`. -/
def rewriteStmt (s : Stmt) : Stmt :=
  match s with
  | .localS n => .localS n
  | .itemS n => .itemS n
  | .exprS e => .exprS ((fallthrough_expr e).getD e)
  | .semiS e => .semiS ((fallthrough_expr e).getD e)

/-- The expected rewritten arms of an all-fallthrough run: arm `i`'s new
body chains its own body, the bodies of the arms below it, and then (the
reverse of) the accumulator `acc` that was live below the whole list. -/
def expectedFallAux (acc : List Expr) : List Arm → List Arm
  | [] => []
  | a :: rest =>
    Arm.mk a.pat (.blockE (chain ((a :: rest).map Arm.body ++ acc.reverse)))
      :: expectedFallAux acc rest

/-- The accumulator state after a list of arms has been folded. -/
def stateAfter (st : List Expr) : List Arm → List Expr
  | [] => st
  | a :: rest => stateAfter (newAcc st a) rest

/-- Pure description of the output of `mash_arms`. -/
def mashF (st : List Expr) : List Arm → List Arm
  | [] => []
  | a :: rest =>
    Arm.mk a.pat (.blockE (chain (newAcc st a).reverse)) :: mashF (newAcc st a) rest

/-! ### Helper lemmas -/

theorem chain_append (l : List Expr) (x : Expr) :
    chain (l ++ [x]) = l.map Stmt.semiS ++ [Stmt.exprS x] := by
  induction l with
  | nil => rfl
  | cons a l ih =>
    cases l with
    | nil => rfl
    | cons b t =>
      simp only [List.cons_append, List.append_eq, chain, List.map] at *
      rw [ih]

theorem parse_arm_fallthru (e : Expr) (h : (parse_arm e).2 = ArmEnd.FallThru) :
    (parse_arm e).1 = e := by
  cases e with
  | breakE => exact absurd h (by simp [parse_arm])
  | blockE stmts =>
    simp only [parse_arm] at h ⊢
    split at h <;> simp_all
  | unitE => rfl
  | matchE s a => rfl
  | atom n => rfl

theorem as_arm_body_cons (e : Expr) (rest : List Expr) :
    as_arm_body (e :: rest) = some (.blockE (chain ((e :: rest).reverse))) := by
  simp only [as_arm_body, List.reverse_cons, chain_append, List.map_reverse]

theorem as_arm_body_concat (st : List Expr) (b : Expr) :
    as_arm_body (st ++ [b]) = some (.blockE (chain (b :: st.reverse))) := by
  cases st with
  | nil => rfl
  | cons e t =>
    rw [List.cons_append, as_arm_body_cons]
    congr 2
    simp

theorem fold_arm_eq (st : List Expr) (arm : Arm) :
    fold_arm st arm =
      some (newAcc st arm, Arm.mk arm.pat (.blockE (chain (newAcc st arm).reverse))) := by
  unfold fold_arm newAcc
  rcases hp : parse_arm arm.body with ⟨b, ending⟩
  cases ending with
  | Break => simp [hp, clearOn, as_arm_body, chain]
  | FallThru => simp [hp, clearOn, as_arm_body_concat]

theorem mash_arms_eq (l : List Arm) : ∀ st, mash_arms st l = some (mashF st l) := by
  induction l with
  | nil => intro st; rfl
  | cons a rest ih =>
    intro st
    simp [mash_arms, mashF, fold_arm_eq, ih]

theorem mashF_append (l1 l2 : List Arm) : ∀ st,
    mashF st (l1 ++ l2) = mashF st l1 ++ mashF (stateAfter st l1) l2 := by
  induction l1 with
  | nil => intro st; rfl
  | cons a t ih => intro st; simp [mashF, stateAfter, ih]

theorem stateAfter_append (l1 l2 : List Arm) : ∀ st,
    stateAfter st (l1 ++ l2) = stateAfter (stateAfter st l1) l2 := by
  induction l1 with
  | nil => intro st; rfl
  | cons a t ih => intro st; simp [stateAfter, ih]

theorem mashF_length (l : List Arm) : ∀ st, (mashF st l).length = l.length := by
  induction l with
  | nil => intro st; rfl
  | cons a t ih => intro st; simp [mashF, ih]

theorem mashF_map_pat (l : List Arm) : ∀ st, (mashF st l).map Arm.pat = l.map Arm.pat := by
  induction l with
  | nil => intro st; rfl
  | cons a t ih => intro st; simp [mashF, ih, Arm.pat]

theorem expectedFallAux_length (l : List Arm) (acc : List Expr) :
    (expectedFallAux acc l).length = l.length := by
  induction l with
  | nil => rfl
  | cons a t ih => simp [expectedFallAux, ih]

theorem expectedFallAux_append (l : List Arm) (y : Arm) : ∀ acc,
    expectedFallAux acc (l ++ [y]) =
      expectedFallAux (acc ++ [Arm.body y]) l
        ++ [Arm.mk y.pat (.blockE (chain (Arm.body y :: acc.reverse)))] := by
  induction l with
  | nil => intro acc; simp [expectedFallAux]
  | cons a t ih =>
    intro acc
    have harg : List.map Arm.body (a :: (t ++ [y])) ++ acc.reverse
        = List.map Arm.body (a :: t) ++ (acc ++ [Arm.body y]).reverse := by
      simp
    simp only [List.cons_append, List.append_eq, expectedFallAux, ih, harg]

theorem expectedFallAux_getElem (l : List Arm) : ∀ acc i (hi : i < l.length)
    (hi' : i < (expectedFallAux acc l).length),
    (expectedFallAux acc l)[i] =
      Arm.mk ((l[i]).pat)
        (.blockE (chain ((l.drop i).map Arm.body ++ acc.reverse))) := by
  induction l with
  | nil => intro acc i hi _; exact absurd hi (Nat.not_lt_zero i)
  | cons a t ih =>
    intro acc i hi hi'
    cases i with
    | zero => rfl
    | succ n =>
      have hn : n < t.length := Nat.lt_of_succ_lt_succ hi
      have hn' : n < (expectedFallAux acc t).length := by
        rw [expectedFallAux_length]; exact hn
      simpa [expectedFallAux] using ih acc n hn hn'

theorem mashF_fall (l : List Arm) : ∀ st,
    (∀ a ∈ l, (parse_arm a.body).2 = ArmEnd.FallThru) →
    mashF st l.reverse = (expectedFallAux st l).reverse := by
  induction l using List.reverseRecOn with
  | nil => intro st _; rfl
  | append_singleton ys y ih =>
    intro st hft
    have hy : (parse_arm y.body).2 = ArmEnd.FallThru := hft y (by simp)
    have hys : ∀ a ∈ ys, (parse_arm a.body).2 = ArmEnd.FallThru :=
      fun a ha => hft a (by simp [ha])
    have hacc : newAcc st y = st ++ [Arm.body y] := by
      unfold newAcc
      rw [hy, parse_arm_fallthru _ hy]
      rfl
    rw [List.reverse_append, List.reverse_singleton, List.singleton_append]
    simp only [mashF, hacc, ih (st ++ [Arm.body y]) hys,
      expectedFallAux_append, List.reverse_append, List.reverse_singleton,
      List.singleton_append, List.reverse_concat]

theorem fallthrough_expr_matchE (scrut : Nat) (arms : List Arm) :
    fallthrough_expr (.matchE scrut arms) =
      some (.matchE scrut (mashF [] arms.reverse).reverse) := by
  simp [fallthrough_expr, mash_arms_eq]

theorem fallthrough_expr_total (e : Expr) : (fallthrough_expr e).isSome = true := by
  cases e <;> simp [fallthrough_expr, mash_arms_eq]

theorem fallthrough_expr_nonmatch (e : Expr) (h : isMatchB e = false) :
    fallthrough_expr e = some e := by
  cases e <;> first | rfl | simp [isMatchB] at h

theorem fallthrough_stmts_eq (stmts : List Stmt) :
    fallthrough_stmts stmts = some (stmts.map rewriteStmt) := by
  induction stmts with
  | nil => rfl
  | cons s rest ih =>
    cases s with
    | localS n => simp [fallthrough_stmts, rewriteStmt, ih]
    | itemS n => simp [fallthrough_stmts, rewriteStmt, ih]
    | exprS e =>
      rcases he : fallthrough_expr e with _ | e'
      · have := fallthrough_expr_total e
        rw [he] at this
        simp at this
      · simp [fallthrough_stmts, rewriteStmt, ih, he]
    | semiS e =>
      rcases he : fallthrough_expr e with _ | e'
      · have := fallthrough_expr_total e
        rw [he] at this
        simp at this
      · simp [fallthrough_stmts, rewriteStmt, ih, he]

theorem retainedValue_chain (st : List Expr) (b : Expr) :
    retainedValue (.blockE (chain ((st ++ [b]).reverse))) = (st ++ [b]).head? := by
  cases st with
  | nil => rfl
  | cons e t =>
    have hr : ((e :: t) ++ [b]).reverse = (b :: t.reverse) ++ [e] := by simp
    rw [hr, chain_append]
    simp only [retainedValue, List.map_cons]
    rw [List.getLast?_concat]
    rfl

/-! ### Sample inputs (from the crate's doc tests) -/

/-- The arms of the `switch` doc test: `1 => s += "1", 2 => s += "2",
_ => ()`, all fallthrough. -/
def switchArms : List Arm :=
  [Arm.mk 1 (.atom 1), Arm.mk 2 (.atom 2), Arm.mk 3 .unitE]

/-- The arms of the `speaker` doc test: `13 => { "13"; break; },
14 => "14", _ => "lol"`. -/
def speakerArms : List Arm :=
  [Arm.mk 13 (.blockE [.semiS (.atom 13), .semiS .breakE]),
   Arm.mk 14 (.atom 14), Arm.mk 99 (.atom 99)]

/-! ### Claim theorems -/

/-- C1: for every match expression in which no arm body ends in an
explicit break, the rewritten body of arm `i` is a block containing, in
order, the original bodies of arms `i, i+1, …, N-1`, every body except
the bottom-most converted to a value-discarding statement and the
bottom-most retained as the value-producing expression (`chain`). -/
theorem fallout_c1 (scrut : Nat) (arms : List Arm)
    (hft : ∀ a ∈ arms, (parse_arm a.body).2 = ArmEnd.FallThru) :
    ∃ arms', fallthrough_expr (Expr.matchE scrut arms) = some (Expr.matchE scrut arms')
      ∧ arms'.length = arms.length
      ∧ ∀ i (hi : i < arms.length) (hi' : i < arms'.length),
          arms'.get ⟨i, hi'⟩ =
            Arm.mk ((arms.get ⟨i, hi⟩).pat)
              (Expr.blockE (chain ((arms.drop i).map Arm.body))) := by
  refine ⟨expectedFallAux [] arms, ?_, expectedFallAux_length arms [], ?_⟩
  · rw [fallthrough_expr_matchE, mashF_fall arms [] hft, List.reverse_reverse]
  · intro i hi hi'
    simpa [List.get_eq_getElem] using expectedFallAux_getElem arms [] i hi hi'

/-- Witness for C1 at the three-arm `switch` doc test. -/
theorem fallout_c1_witness :
    ∃ arms', fallthrough_expr (Expr.matchE 0 switchArms) = some (Expr.matchE 0 arms')
      ∧ arms'.length = switchArms.length
      ∧ ∀ i (hi : i < switchArms.length) (hi' : i < arms'.length),
          arms'.get ⟨i, hi'⟩ =
            Arm.mk ((switchArms.get ⟨i, hi⟩).pat)
              (Expr.blockE (chain ((switchArms.drop i).map Arm.body))) :=
  fallout_c1 0 switchArms (by
    intro a ha
    simp only [switchArms, List.mem_cons, List.not_mem_nil, or_false] at ha
    rcases ha with rfl | rfl | rfl <;> rfl)

/-- C2: for a match expression whose arm `k` ends in an explicit break
and whose arms above `k` all fall through, the rewritten body of every
arm `i ≤ k` is a block containing only the original bodies of arms
`i..k` (arm `k`'s body with the break stripped, retained as the
value-producing expression) — no body of any arm below `k` appears. -/
theorem fallout_c2 (scrut k : Nat) (arms : List Arm) (hk : k < arms.length)
    (hbrk : (parse_arm ((arms.get ⟨k, hk⟩).body)).2 = ArmEnd.Break)
    (hpre : ∀ a ∈ arms.take k, (parse_arm a.body).2 = ArmEnd.FallThru) :
    ∃ arms', fallthrough_expr (Expr.matchE scrut arms) = some (Expr.matchE scrut arms')
      ∧ arms'.length = arms.length
      ∧ ∀ i (hik : i ≤ k) (hi : i < arms.length) (hi' : i < arms'.length),
          arms'.get ⟨i, hi'⟩ =
            Arm.mk ((arms.get ⟨i, hi⟩).pat)
              (Expr.blockE (chain (((arms.drop i).take (k - i)).map Arm.body
                ++ [(parse_arm ((arms.get ⟨k, hk⟩).body)).1]))) := by
  simp only [List.get_eq_getElem] at hbrk
  have hlenpre : (arms.take k).length = k := by
    rw [List.length_take]
    omega
  have harms : arms = arms.take k ++ arms[k] :: arms.drop (k + 1) := by
    conv_lhs => rw [← List.take_append_drop k arms]
    rw [List.drop_eq_getElem_cons hk]
  have hacc : ∀ st : List Expr, newAcc st (arms[k])
      = [(parse_arm ((arms[k]).body)).1] := by
    intro st
    unfold newAcc
    rw [hbrk]
    rfl
  have hE : (expectedFallAux [(parse_arm ((arms[k]).body)).1]
      (arms.take k)).length = k := by
    rw [expectedFallAux_length, hlenpre]
  refine ⟨(expectedFallAux [(parse_arm ((arms[k]).body)).1] (arms.take k)
      ++ [Arm.mk ((arms[k]).pat)
            (Expr.blockE [Stmt.exprS (parse_arm ((arms[k]).body)).1])])
      ++ (mashF [] ((arms.drop (k + 1)).reverse)).reverse, ?_, ?_, ?_⟩
  · rw [fallthrough_expr_matchE]
    congr 2
    conv_lhs =>
      rw [harms, List.reverse_append, List.reverse_cons, List.append_assoc]
    rw [mashF_append, mashF_append,
      mashF_fall (arms.take k) _ hpre]
    simp [mashF, stateAfter, hacc, chain, List.reverse_append]
  · rw [List.length_append, List.length_append, hE, List.length_reverse,
      mashF_length, List.length_reverse]
    conv_rhs => rw [harms]
    simp
    omega
  · intro i hik hi hi'
    simp only [List.get_eq_getElem]
    rcases Nat.lt_or_ge i k with hlt | hge
    · have h1 : i < (expectedFallAux [(parse_arm ((arms[k]).body)).1]
          (arms.take k) ++ [Arm.mk ((arms[k]).pat)
            (Expr.blockE [Stmt.exprS (parse_arm ((arms[k]).body)).1])]).length := by
        simp only [List.length_append, hE, List.length_cons, List.length_nil]
        omega
      have h2 : i < (expectedFallAux [(parse_arm ((arms[k]).body)).1]
          (arms.take k)).length := by
        rw [hE]
        exact hlt
      have h3 : i < (arms.take k).length := by
        rw [hlenpre]
        exact hlt
      rw [List.getElem_append_left h1, List.getElem_append_left h2,
        expectedFallAux_getElem (arms.take k) _ i h3 h2]
      simp [List.getElem_take, List.drop_take]
    · have hik' : i = k := Nat.le_antisymm hik hge
      subst hik'
      have h1 : i < (expectedFallAux [(parse_arm ((arms[i]).body)).1]
          (arms.take i) ++ [Arm.mk ((arms[i]).pat)
            (Expr.blockE [Stmt.exprS (parse_arm ((arms[i]).body)).1])]).length := by
        simp only [List.length_append, hE, List.length_cons, List.length_nil]
        omega
      rw [List.getElem_append_left h1,
        List.getElem_append_right (Nat.le_of_eq hE)]
      simp [hE, chain]

/-- Witness for C2 at the two-break-arm shape of the `speaker` doc test
(arm 0 `{ "13"; break; }` is the break arm, `k = 0`). -/
theorem fallout_c2_witness :
    ∃ arms', fallthrough_expr (Expr.matchE 0 speakerArms) = some (Expr.matchE 0 arms')
      ∧ arms'.length = speakerArms.length
      ∧ ∀ i (hik : i ≤ 0) (hi : i < speakerArms.length) (hi' : i < arms'.length),
          arms'.get ⟨i, hi'⟩ =
            Arm.mk ((speakerArms.get ⟨i, hi⟩).pat)
              (Expr.blockE (chain (((speakerArms.drop i).take (0 - i)).map Arm.body
                ++ [(parse_arm ((speakerArms.get ⟨0, by simp [speakerArms]⟩).body)).1]))) :=
  fallout_c2 0 0 speakerArms (by simp [speakerArms]) rfl
    (by intro a ha; simp [speakerArms] at ha)

/-- C3 counterexample: folding the top arm (body `atom 0`) with the
accumulator already holding the arm below it (`atom 1`), the synthesized
block retains the OLDEST accumulator entry `atom 1` as the
value-producing expression, not the arm's own (break-stripped) body
`atom 0` as the claim states. -/
theorem fallout_c3_counterexample :
    fold_arm [Expr.atom 1] (Arm.mk 0 (Expr.atom 0)) =
      some ([Expr.atom 1, Expr.atom 0],
        Arm.mk 0 (Expr.blockE [Stmt.semiS (Expr.atom 0), Stmt.exprS (Expr.atom 1)]))
    ∧ ((fold_arm [Expr.atom 1] (Arm.mk 0 (Expr.atom 0))).map
        (fun r => (retainedValue (Arm.body r.2)).bind atomIdx)) = some (some 1)
    ∧ atomIdx (parse_arm (Arm.body (Arm.mk 0 (Expr.atom 0)))).1 = some 0 :=
  ⟨rfl, rfl, rfl⟩

/-- C3 (amended): the synthesized body lists every accumulator
expression in top-to-bottom textual order with the arm's own
(break-stripped) body FIRST, and the expression retained as
value-producing is the OLDEST-pushed accumulator entry (the bottom-most
arm of the current chain, i.e. the head of the accumulator), all other
expressions being converted to value-discarding statements. -/
theorem fallout_c3_amended (st : List Expr) (arm : Arm) :
    fold_arm st arm =
      some (newAcc st arm, Arm.mk arm.pat (.blockE (chain (newAcc st arm).reverse)))
    ∧ (fold_arm st arm).map (fun r => retainedValue (Arm.body r.2))
        = some ((newAcc st arm).head?) := by
  refine ⟨fold_arm_eq st arm, ?_⟩
  rw [fold_arm_eq]
  simp only [Option.map_some', Arm.body]
  unfold newAcc
  rw [retainedValue_chain]

/-- Witness for the amended C3 at a concrete fold: the retained value is
the head (oldest entry) of the post-push accumulator. -/
theorem fallout_c3_witness :
    fold_arm [Expr.atom 1] (Arm.mk 2 (Expr.atom 3)) =
      some ([Expr.atom 1, Expr.atom 3],
        Arm.mk 2 (Expr.blockE [Stmt.semiS (Expr.atom 3), Stmt.exprS (Expr.atom 1)]))
    ∧ (fold_arm [Expr.atom 1] (Arm.mk 2 (Expr.atom 3))).map
        (fun r => retainedValue (Arm.body r.2)) = some (some (Expr.atom 1)) :=
  fallout_c3_amended [Expr.atom 1] (Arm.mk 2 (Expr.atom 3))

/-- C5: on a `Break`-classified arm the accumulator is cleared before
the break-stripped body is pushed (so the new accumulator is just that
body); on a `FallThrough`-classified arm the body is pushed without
clearing; in both cases the new body is synthesized from the
post-push accumulator. -/
theorem fallout_c5 (st : List Expr) (arm : Arm) :
    ((parse_arm arm.body).2 = ArmEnd.Break →
      fold_arm st arm = some ([(parse_arm arm.body).1],
        Arm.mk arm.pat (Expr.blockE [Stmt.exprS (parse_arm arm.body).1])))
    ∧ ((parse_arm arm.body).2 = ArmEnd.FallThru →
      fold_arm st arm = some (st ++ [(parse_arm arm.body).1],
        Arm.mk arm.pat (Expr.blockE (chain ((parse_arm arm.body).1 :: st.reverse))))) := by
  constructor
  · intro h
    rw [fold_arm_eq]
    unfold newAcc
    rw [h]
    simp [clearOn, chain]
  · intro h
    rw [fold_arm_eq]
    unfold newAcc
    rw [h]
    simp [clearOn, List.reverse_concat]

/-- Witness for C5: a bare-break arm clears a non-empty accumulator; a
plain arm pushes onto it. -/
theorem fallout_c5_witness :
    fold_arm [Expr.atom 5] (Arm.mk 0 Expr.breakE) =
      some ([Expr.unitE], Arm.mk 0 (Expr.blockE [Stmt.exprS Expr.unitE]))
    ∧ fold_arm [Expr.atom 5] (Arm.mk 1 (Expr.atom 7)) =
      some ([Expr.atom 5, Expr.atom 7],
        Arm.mk 1 (Expr.blockE [Stmt.semiS (Expr.atom 7), Stmt.exprS (Expr.atom 5)])) :=
  ⟨(fallout_c5 [Expr.atom 5] (Arm.mk 0 Expr.breakE)).1 rfl,
   (fallout_c5 [Expr.atom 5] (Arm.mk 1 (Expr.atom 7))).2 rfl⟩

/-- C4: arm-body classification: a bare explicit break is replaced by
the no-op value `()` and classified `Break`; a block whose last
statement is an explicit break loses that statement and has the new last
statement converted from the semicolon-terminated form to the
value-producing form (`unsemiLast`, the identity when the new last
statement is already value-producing or the block became empty), and is
classified `Break`; every other body is returned unchanged and
classified `FallThrough`. -/
theorem fallout_c4 :
    parse_arm Expr.breakE = (Expr.unitE, ArmEnd.Break)
    ∧ (∀ pre : List Stmt, parse_arm (Expr.blockE (pre ++ [Stmt.semiS Expr.breakE]))
        = (Expr.blockE (unsemiLast pre), ArmEnd.Break))
    ∧ (∀ pre : List Stmt, parse_arm (Expr.blockE (pre ++ [Stmt.exprS Expr.breakE]))
        = (Expr.blockE (unsemiLast pre), ArmEnd.Break))
    ∧ (∀ e, endsInBreakB e = false → parse_arm e = (e, ArmEnd.FallThru)) := by
  refine ⟨rfl, ?_, ?_, ?_⟩
  · intro pre
    simp only [parse_arm, List.getLast?_concat, List.dropLast_concat, unsemiLast]
  · intro pre
    simp only [parse_arm, List.getLast?_concat, List.dropLast_concat, unsemiLast]
  · intro e he
    cases e with
    | breakE => simp [endsInBreakB] at he
    | blockE stmts =>
      simp only [endsInBreakB] at he
      simp only [parse_arm]
      rcases h : stmts.getLast? with _ | s
      · simp [h]
      · rw [h] at he
        cases s with
        | exprS e' => cases e' <;> simp_all
        | semiS e' => cases e' <;> simp_all
        | localS n => simp [h]
        | itemS n => simp [h]
    | unitE => rfl
    | matchE s a => rfl
    | atom n => rfl

/-- Witness for C4: a `{ "13"; break; }`-shaped block, a `{ break }`
block, and a plain body. -/
theorem fallout_c4_witness :
    parse_arm (Expr.blockE ([Stmt.semiS (Expr.atom 13)] ++ [Stmt.semiS Expr.breakE]))
      = (Expr.blockE (unsemiLast [Stmt.semiS (Expr.atom 13)]), ArmEnd.Break)
    ∧ parse_arm (Expr.blockE ([] ++ [Stmt.exprS Expr.breakE]))
      = (Expr.blockE (unsemiLast []), ArmEnd.Break)
    ∧ endsInBreakB (Expr.atom 5) = false
    ∧ parse_arm (Expr.atom 5) = (Expr.atom 5, ArmEnd.FallThru) :=
  ⟨fallout_c4.2.1 [Stmt.semiS (Expr.atom 13)],
   fallout_c4.2.2.1 [],
   rfl,
   fallout_c4.2.2.2 (Expr.atom 5) rfl⟩

/-- C6: the rewrite preserves the scrutinee, the number of arms and
every arm's pattern; only arm bodies are replaced. -/
theorem fallout_c6 (scrut : Nat) (arms : List Arm) :
    ∃ arms', fallthrough_expr (Expr.matchE scrut arms) = some (Expr.matchE scrut arms')
      ∧ arms'.length = arms.length
      ∧ arms'.map Arm.pat = arms.map Arm.pat := by
  refine ⟨(mashF [] arms.reverse).reverse, fallthrough_expr_matchE scrut arms, ?_, ?_⟩
  · rw [List.length_reverse, mashF_length, List.length_reverse]
  · rw [List.map_reverse, mashF_map_pat, List.map_reverse, List.reverse_reverse]

/-- Witness for C6 at the `switch` doc test. -/
theorem fallout_c6_witness :
    ∃ arms', fallthrough_expr (Expr.matchE 0 switchArms) = some (Expr.matchE 0 arms')
      ∧ arms'.length = switchArms.length
      ∧ arms'.map Arm.pat = switchArms.map Arm.pat :=
  fallout_c6 0 switchArms

/-- C7: `fallout` rewrites exactly the statements that are top-level
match expressions: every statement is mapped through `rewriteStmt`,
which is the identity on locals, items and non-match expression
statements; the output has the same length; and input that does not
parse as a function is returned unmodified. -/
theorem fallout_c7 :
    (∀ t, fallout (FnInput.unparsable t) = some (FnInput.unparsable t))
    ∧ (∀ sig stmts, fallout (FnInput.parsed sig stmts)
        = some (FnInput.parsed sig (stmts.map rewriteStmt)))
    ∧ (∀ sig stmts, ∃ stmts', fallout (FnInput.parsed sig stmts)
        = some (FnInput.parsed sig stmts') ∧ stmts'.length = stmts.length)
    ∧ (∀ s, isMatchStmtB s = false → rewriteStmt s = s) := by
  have h2 : ∀ sig stmts, fallout (FnInput.parsed sig stmts)
      = some (FnInput.parsed sig (stmts.map rewriteStmt)) := by
    intro sig stmts
    simp [fallout, fallthrough_stmts_eq]
  refine ⟨fun t => rfl, h2,
    fun sig stmts => ⟨stmts.map rewriteStmt, h2 sig stmts, by simp⟩, ?_⟩
  intro s hs
  cases s with
  | localS n => rfl
  | itemS n => rfl
  | exprS e => cases e <;> simp_all [isMatchStmtB, rewriteStmt, fallthrough_expr]
  | semiS e => cases e <;> simp_all [isMatchStmtB, rewriteStmt, fallthrough_expr]

/-- Witness for C7: a local statement passes through unchanged. -/
theorem fallout_c7_witness :
    isMatchStmtB (Stmt.localS 4) = false
    ∧ rewriteStmt (Stmt.localS 4) = Stmt.localS 4 :=
  ⟨rfl, fallout_c7.2.2.2 (Stmt.localS 4) rfl⟩

/-- C9: the transform is single-level: an expression that is not itself
a match — even a block containing a match statement — is copied
verbatim by `fallthrough_expr`, and an arm whose body is a nested match
expression has that body pushed and chained verbatim, never recursively
rewritten. -/
theorem fallout_c9 :
    (∀ e, isMatchB e = false → fallthrough_expr e = some e)
    ∧ (∀ (st : List Expr) (p scrut : Nat) (innerArms : List Arm),
        fold_arm st (Arm.mk p (Expr.matchE scrut innerArms))
          = some (st ++ [Expr.matchE scrut innerArms],
              Arm.mk p (Expr.blockE
                (chain (Expr.matchE scrut innerArms :: st.reverse))))) := by
  refine ⟨fallthrough_expr_nonmatch, ?_⟩
  intro st p scrut innerArms
  rw [fold_arm_eq]
  unfold newAcc
  simp [parse_arm, Arm.body, Arm.pat, clearOn, List.reverse_concat]

/-- Witness for C9: a block statement containing a nested match is
returned verbatim. -/
theorem fallout_c9_witness :
    isMatchB (Expr.blockE [Stmt.exprS (Expr.matchE 7 [Arm.mk 0 (Expr.atom 0)])]) = false
    ∧ fallthrough_expr (Expr.blockE [Stmt.exprS (Expr.matchE 7 [Arm.mk 0 (Expr.atom 0)])])
      = some (Expr.blockE [Stmt.exprS (Expr.matchE 7 [Arm.mk 0 (Expr.atom 0)])]) :=
  ⟨rfl, fallout_c9.1 (Expr.blockE [Stmt.exprS (Expr.matchE 7 [Arm.mk 0 (Expr.atom 0)])]) rfl⟩

/-- C10: an arm whose body is a block whose only statement is an
explicit break is classified `Break` with break-stripped body the empty
block — not the `()` literal used for a bare unbraced break — and when
folded it clears the accumulator and contributes that empty block as the
sole (value-producing) entry of its rewritten body. -/
theorem fallout_c10 :
    parse_arm (Expr.blockE [Stmt.semiS Expr.breakE]) = (Expr.blockE [], ArmEnd.Break)
    ∧ parse_arm (Expr.blockE [Stmt.exprS Expr.breakE]) = (Expr.blockE [], ArmEnd.Break)
    ∧ isUnitLit (Expr.blockE []) = false
    ∧ isUnitLit Expr.unitE = true
    ∧ parse_arm Expr.breakE = (Expr.unitE, ArmEnd.Break)
    ∧ (∀ (st : List Expr) (p : Nat),
        fold_arm st (Arm.mk p (Expr.blockE [Stmt.semiS Expr.breakE]))
          = some ([Expr.blockE []],
              Arm.mk p (Expr.blockE [Stmt.exprS (Expr.blockE [])]))) :=
  ⟨rfl, rfl, rfl, rfl, rfl, fun st p => rfl⟩

/-- Witness for C10: folding a `{ break; }` arm over a non-empty
accumulator clears it and leaves the empty block as the body. -/
theorem fallout_c10_witness :
    fold_arm [Expr.atom 8] (Arm.mk 3 (Expr.blockE [Stmt.semiS Expr.breakE]))
      = some ([Expr.blockE []],
          Arm.mk 3 (Expr.blockE [Stmt.exprS (Expr.blockE [])])) :=
  fallout_c10.2.2.2.2.2 [Expr.atom 8] 3

/-- C8: the empty-accumulator abort of `as_arm_body` (modelled by
`none`) exists, but is unreachable through `fold_arm`: every fold pushes
the arm's body before synthesizing, so `as_arm_body` is always applied
to a list of the form `st ++ [b]` and `fold_arm` (hence
`fallthrough_expr`) always succeeds. -/
theorem fallout_c8 :
    as_arm_body [] = none
    ∧ (∀ st b, (as_arm_body (st ++ [b])).isSome = true)
    ∧ (∀ st arm, (fold_arm st arm).isSome = true)
    ∧ (∀ e, (fallthrough_expr e).isSome = true) := by
  refine ⟨rfl, ?_, ?_, fallthrough_expr_total⟩
  · intro st b
    rw [as_arm_body_concat]
    rfl
  · intro st arm
    rw [fold_arm_eq]
    rfl

/-- Witness for C8: the success of synthesis and folding at concrete
inputs. -/
theorem fallout_c8_witness :
    (as_arm_body ([Expr.atom 2] ++ [Expr.atom 3])).isSome = true
    ∧ (fold_arm [] (Arm.mk 0 Expr.breakE)).isSome = true
    ∧ (fallthrough_expr (Expr.matchE 0 switchArms)).isSome = true :=
  ⟨fallout_c8.2.1 [Expr.atom 2] (Expr.atom 3),
   fallout_c8.2.2.1 [] (Arm.mk 0 Expr.breakE),
   fallout_c8.2.2.2 (Expr.matchE 0 switchArms)⟩

end Plutonium
